import Mathlib

/-!
Verification of the Householder QR notebook (`linear_solve_stability.ipynb`).

The numerical core of the repository consists of three NumPy functions:

  * `householder(A)` — QR factorization via Householder triangularization
    (Trefethen & Bau algorithm 10.1, with `np.sign` supplying the sign of
    the leading entry);
  * `apply_Q(V, x)` — application of the stored reflectors to a vector in
    reverse column order (Trefethen & Bau algorithm 10.3);
  * `compute_Q(V)` — materialization of the orthogonal factor column by
    column via `apply_Q` on standard basis vectors.

This file embeds those functions, line by line, as functions over real
matrices (`Matrix (Fin m) (Fin n) ℝ`), following the spec's fixed-size
representation of the reflector slices: the slice `x = R[k:,k]` is kept as a
full-length vector whose entries above row `k` are zero, and all slice
operations carry the lower bound `k` explicitly.

Real arithmetic is exact here.  Two places where NumPy semantics and exact
real arithmetic diverge are noted at the corresponding definitions: NumPy's
division of the zero vector by its zero norm yields NaN whereas Lean's
division-by-zero convention yields 0, and NumPy raises an IndexError when a
loop index would run past the number of rows (a shape no theorem below
exercises), whereas the embedding leaves the state unchanged there.
-/

open Matrix

/-- NumPy sign function `np.sign` on reals: 1 for positive input, -1 for
negative input, and 0 for zero input. -/
noncomputable def npSign (t : ℝ) : ℝ :=
  if 0 < t then 1 else if t < 0 then -1 else 0

/-- Dot product of the slices `u[k:]` and `v[k:]`: entries with row index
below `k` are ignored.  This is `np.dot` applied to sliced columns, with the
slices represented as full-length vectors. -/
def sliceDot {m : ℕ} (k : ℕ) (u v : Fin m → ℝ) : ℝ :=
  ∑ i : Fin m, if k ≤ (i : ℕ) then u i * v i else 0

/-- Euclidean norm `np.linalg.norm(x, 2)` of the slice `x[k:]`. -/
noncomputable def sliceNorm {m : ℕ} (k : ℕ) (x : Fin m → ℝ) : ℝ :=
  Real.sqrt (sliceDot k x x)

/-- The sub-column `x = R[k:,k].copy()` extracted by `householder` at step
`k`, kept as a full-length vector with zeros above row `k`.  For `k ≥ n`
(a column that does not exist; never reached by the source loop) the result
is the zero vector. -/
def subcolAt {m n : ℕ} (R : Matrix (Fin m) (Fin n) ℝ) (k : ℕ) : Fin m → ℝ :=
  fun i => if h : k < n then (if k ≤ (i : ℕ) then R i ⟨k, h⟩ else 0) else 0

/-- The perturbation `x[0] = x[0] + np.sign(x[0]) * np.linalg.norm(x, 2)` of
the leading entry of the slice: entry `0` of the slice is row `k` of the
full-length vector.  When `k ≥ m` there is no row `k` and the vector is
returned unchanged (NumPy raises an IndexError on that shape; no claim
exercises it). -/
noncomputable def perturbed {m : ℕ} (k : ℕ) (x : Fin m → ℝ) : Fin m → ℝ :=
  fun i => if (i : ℕ) = k then x i + npSign (x i) * sliceNorm k x else x i

/-- The normalization `x = x / np.linalg.norm(x, 2)` of the slice.  NumPy
divides elementwise; when the norm is zero this is a division by zero, which
yields NaN in NumPy but 0 under Lean's convention (see the theorem for claim
C5). -/
noncomputable def normalized {m : ℕ} (k : ℕ) (x : Fin m → ℝ) : Fin m → ℝ :=
  fun i => x i / sliceNorm k x

/-- One iteration of the `for k in range(n-1)` loop of `householder`: build
the reflector from the current `R`, store it into column `k` of `V`
(`V[k:,k] = x.copy()`), and update the columns `j = k, ..., n-1` of `R` by
`R[k:,j] = R[k:,j] - 2*V[k:,k]*np.dot(V[k:,k].T, R[k:,j])`.  Rows above `k`
and columns left of `k` are untouched, exactly as in the sliced NumPy
assignments. -/
noncomputable def hhStep {m n : ℕ} (k : ℕ)
    (VR : Matrix (Fin m) (Fin n) ℝ × Matrix (Fin m) (Fin n) ℝ) :
    Matrix (Fin m) (Fin n) ℝ × Matrix (Fin m) (Fin n) ℝ :=
  let v := normalized k (perturbed k (subcolAt VR.2 k))
  (fun i j => if (j : ℕ) = k ∧ k ≤ (i : ℕ) then v i else VR.1 i j,
   fun i j => if k ≤ (j : ℕ) ∧ k ≤ (i : ℕ) then
       VR.2 i j - 2 * v i * sliceDot k v (fun r => VR.2 r j)
     else VR.2 i j)

/-- The first `t` iterations of `householder`'s loop, starting from
`V = np.zeros(A.shape)` and `R = A.copy()`. -/
noncomputable def hhLoop {m n : ℕ} (A : Matrix (Fin m) (Fin n) ℝ) :
    ℕ → Matrix (Fin m) (Fin n) ℝ × Matrix (Fin m) (Fin n) ℝ
  | 0 => (0, A)
  | t + 1 => hhStep t (hhLoop A t)

/-- The function `householder(A)` of the notebook: run the loop for
`k = 0, ..., n-2` and return `(V, R)`.  The source returns `R[:n,:]`; for the
square shapes of claims C1-C7 and the `m = n - 1` shape of claim C8 that
NumPy slice is the whole working matrix (NumPy truncates a slice silently at
the last row), so the embedding returns the working matrix itself. -/
noncomputable def householder {m n : ℕ} (A : Matrix (Fin m) (Fin n) ℝ) :
    Matrix (Fin m) (Fin n) ℝ × Matrix (Fin m) (Fin n) ℝ :=
  hhLoop A (n - 1)

/-- The sub-column `x = R[k:,k]` that `householder` extracts at step `k`,
i.e. from the working matrix after the first `k` loop iterations. -/
noncomputable def extractedSubcol {m n : ℕ} (A : Matrix (Fin m) (Fin n) ℝ)
    (k : ℕ) : Fin m → ℝ :=
  subcolAt (hhLoop A k).2 k

/-- One iteration of `apply_Q`'s loop:
`x[k:] = x[k:] - 2*np.dot(V[k:,k], x[k:])*V[k:,k]`. -/
def reflectStep {m n : ℕ} (V : Matrix (Fin m) (Fin n) ℝ) (k : ℕ)
    (x : Fin m → ℝ) : Fin m → ℝ :=
  fun i =>
    if h : k < n then
      if k ≤ (i : ℕ) then
        x i - 2 * sliceDot k (fun r => V r ⟨k, h⟩) x * V i ⟨k, h⟩
      else x i
    else x i

/-- The loop `for k in range(n-1, -1, -1)` of `apply_Q`: `applyQAux V t x`
performs the iterations `k = t-1, t-2, ..., 0`, so the step with the largest
`k` is applied to `x` first, exactly as in the downward NumPy loop. -/
def applyQAux {m n : ℕ} (V : Matrix (Fin m) (Fin n) ℝ) :
    ℕ → (Fin m → ℝ) → (Fin m → ℝ)
  | 0, x => x
  | t + 1, x => applyQAux V t (reflectStep V t x)

/-- The function `apply_Q(V, x)` of the notebook (algorithm 10.3 of
Trefethen & Bau): apply the stored reflectors to `x` in reverse column
order. -/
def apply_Q {m n : ℕ} (V : Matrix (Fin m) (Fin n) ℝ) (x : Fin m → ℝ) :
    Fin m → ℝ :=
  applyQAux V n x

/-- The vector built by `x = np.zeros(m); x[k] = 1.` in `compute_Q`: the
`k`-th standard basis vector of length `m`. -/
def basisVec {m : ℕ} (k : ℕ) : Fin m → ℝ :=
  fun i => if (i : ℕ) = k then 1 else 0

/-- The function `compute_Q(V)` of the notebook: materialize `Q` column by
column as `Q[:,k] = apply_Q(V, e_k)`. -/
def compute_Q {m n : ℕ} (V : Matrix (Fin m) (Fin n) ℝ) :
    Matrix (Fin m) (Fin n) ℝ :=
  fun i j => apply_Q V (basisVec (j : ℕ)) i

/-! ### Arithmetic helpers for evaluating the algorithm at concrete inputs -/

lemma sqrt_four : Real.sqrt 4 = 2 := by
  rw [show (4 : ℝ) = 2 ^ 2 by norm_num]
  exact Real.sqrt_sq (by norm_num)

lemma sqrt_twentyfive : Real.sqrt 25 = 5 := by
  rw [show (25 : ℝ) = 5 ^ 2 by norm_num]
  exact Real.sqrt_sq (by norm_num)

/-! ### Claim C4: triangularity of the computed R -/

/-- Input matrix witnessing the failure of strict lower triangularity:
its first column is `(0, 1)`, a nonzero sub-column with zero leading
entry, so `np.sign(0) = 0` leaves the reflector equal to the normalized
column itself and the reflection maps the column to its negation instead
of to a multiple of `e_1`. -/
def exampleC4 : Matrix (Fin 2) (Fin 2) ℝ := !![0, 1; 1, 0]

/-- C4: the claim states that for every square matrix whose extracted
sub-columns are all nonzero, the strictly-lower-triangular entries of the
returned `R` are exactly zero in exact arithmetic.  The code violates this:
on `exampleC4` every extracted sub-column is nonzero, yet the returned `R`
has `R[1,0] = -1 ≠ 0`, because `np.sign(0) = 0` builds a reflector that
negates the sub-column instead of zeroing its tail. -/
theorem C4_code_bug_lower_triangle :
    (householder exampleC4).2 1 0 = -1 ∧ extractedSubcol exampleC4 0 ≠ 0 := by
  constructor
  · show (hhLoop exampleC4 1).2 1 0 = -1
    simp [hhLoop, hhStep, subcolAt, perturbed, normalized, npSign, sliceNorm, sliceDot,
      Fin.sum_univ_two, exampleC4]
    norm_num
  · intro h
    have h1 := congrFun h 1
    simp [extractedSubcol, hhLoop, subcolAt, exampleC4] at h1

/-! ### Claim C5: behaviour on an all-zero sub-column -/

/-- Input matrix whose first extracted sub-column `R[0:,0]` is the zero
vector. -/
def exampleC5 : Matrix (Fin 2) (Fin 2) ℝ := !![0, 0; 0, 1]

/-- C5: the claim states that when the extracted sub-column is the zero
vector, `householder` skips the normalization and leaves column `k` of `V`
zero, producing no NaN.  The code contains no such guard: on `exampleC5` the
step-0 sub-column is the zero vector and its Euclidean norm — the
denominator of the unconditional normalization `x = x/np.linalg.norm(x,2)` —
is 0, so NumPy evaluates `0.0/0.0` for every entry and fills `V[:,0]` (and
thereafter `R`) with NaN rather than skipping the step. -/
theorem C5_code_bug_zero_subcolumn :
    extractedSubcol exampleC5 0 = 0 ∧
    sliceNorm 0 (extractedSubcol exampleC5 0) = 0 := by
  have hz : extractedSubcol exampleC5 0 = 0 := by
    funext i
    fin_cases i <;> simp [extractedSubcol, hhLoop, subcolAt, exampleC5]
  refine ⟨hz, ?_⟩
  rw [hz]
  simp [sliceNorm, sliceDot]

/-! ### Claim C6: the sign convention for a zero leading entry -/

/-- Input matrix whose first extracted sub-column is `(0, 4)`: zero leading
entry but nonzero norm. -/
def exampleC6 : Matrix (Fin 2) (Fin 2) ℝ := !![0, 3; 4, 0]

/-- C6: the claim states that the perturbation `x[0] += sign(x[0])*‖x‖₂`
treats the sign of a zero leading entry as `+1`, so a sub-column with
`x[0] = 0` and nonzero norm gets perturbed leading entry `+‖x‖₂`.  The code
uses `np.sign`, for which `sign(0) = 0`: on `exampleC6` the step-0
sub-column has norm 4, yet the perturbed leading entry is `0`, not `+4`. -/
theorem C6_code_bug_sign_zero :
    perturbed 0 (extractedSubcol exampleC6 0) 0 = 0 ∧
    sliceNorm 0 (extractedSubcol exampleC6 0) = 4 := by
  have hx : extractedSubcol exampleC6 0 = fun i : Fin 2 => if (i : ℕ) = 1 then 4 else 0 := by
    funext i
    fin_cases i <;> simp [extractedSubcol, hhLoop, subcolAt, exampleC6]
  rw [hx]
  constructor
  · simp [perturbed, npSign]
  · simp [sliceNorm, sliceDot, Fin.sum_univ_two]

/-! ### Claim C2: the product Q·R versus A -/

/-- Input matrix witnessing the failure of `Q·R = A`: both extracted
sub-columns are nonzero, but both have zero leading entry, so `np.sign(0)=0`
makes each reflection negate its sub-column instead of zeroing it; the
stored reflectors then fail to reproduce `A`. -/
def exampleC2 : Matrix (Fin 3) (Fin 3) ℝ := !![0,0,0; 1,-1,0; 0,0,1]

/-- State of the factorization of `exampleC2` after one loop iteration. -/
lemma exampleC2_loop1 :
    hhLoop exampleC2 1 = (!![0,0,0; 1,0,0; 0,0,0], !![0,0,0; -1,1,0; 0,0,1]) := by
  refine Prod.ext ?_ ?_ <;>
  · ext i j
    fin_cases i <;> fin_cases j <;>
      simp [hhLoop, hhStep, subcolAt, perturbed, normalized, npSign, sliceNorm, sliceDot,
        Fin.sum_univ_three, exampleC2, Matrix.vecHead, Matrix.vecTail] <;> norm_num

/-- State of the factorization of `exampleC2` after both loop iterations,
i.e. the value of `householder exampleC2`. -/
lemma exampleC2_loop2 :
    hhLoop exampleC2 2 = (!![0,0,0; 1,1,0; 0,0,0], !![0,0,0; -1,-1,0; 0,0,1]) := by
  have h : hhLoop exampleC2 2 = hhStep 1 (hhLoop exampleC2 1) := rfl
  rw [h, exampleC2_loop1]
  refine Prod.ext ?_ ?_ <;>
  · ext i j
    fin_cases i <;> fin_cases j <;>
      simp [hhStep, subcolAt, perturbed, normalized, npSign, sliceNorm, sliceDot,
        Fin.sum_univ_three, Matrix.vecHead, Matrix.vecTail, sqrt_four] <;> norm_num [sqrt_four]

/-- C2: the claim states that for every square matrix whose extracted
sub-columns are all nonzero, `compute_Q` applied to the `V` of
`householder(A)` satisfies `Q·R = A` exactly in exact arithmetic.  The code
violates this: on `exampleC2` both extracted sub-columns are nonzero, yet
the product `Q·R` has entry `-1` at position `(1,0)` where `A` has `1`. -/
theorem C2_code_bug_qr_product :
    (compute_Q (householder exampleC2).1 * (householder exampleC2).2) 1 0 = -1 ∧
    exampleC2 1 0 = 1 ∧
    extractedSubcol exampleC2 0 ≠ 0 ∧ extractedSubcol exampleC2 1 ≠ 0 := by
  have hh : householder exampleC2 =
      (!![0,0,0; 1,1,0; 0,0,0], !![0,0,0; -1,-1,0; 0,0,1]) := exampleC2_loop2
  refine ⟨?_, ?_, ?_, ?_⟩
  · rw [Matrix.mul_apply, hh]
    simp [compute_Q, apply_Q, applyQAux, reflectStep, basisVec, sliceDot,
      Fin.sum_univ_three, Matrix.vecHead, Matrix.vecTail]
    norm_num
  · norm_num [exampleC2]
  · intro h
    have h1 := congrFun h 1
    simp [extractedSubcol, hhLoop, subcolAt, exampleC2] at h1
  · intro h
    have h1 := congrFun h 1
    simp only [extractedSubcol, exampleC2_loop1] at h1
    simp [subcolAt] at h1

/-! ### Claim C7: behaviour on the 3×3 identity matrix -/

/-- State of the factorization of the 3×3 identity after one loop
iteration: the first column `(1,0,0)` is perturbed to `(2,0,0)` (since
`np.sign(1) = 1`), normalized to `e_0`, and the reflection negates the
first row. -/
lemma identity3_loop1 :
    hhLoop (1 : Matrix (Fin 3) (Fin 3) ℝ) 1 =
      (!![1,0,0; 0,0,0; 0,0,0], !![-1,0,0; 0,1,0; 0,0,1]) := by
  refine Prod.ext ?_ ?_ <;>
  · ext i j
    fin_cases i <;> fin_cases j <;>
      simp [hhLoop, hhStep, subcolAt, perturbed, normalized, npSign, sliceNorm, sliceDot,
        Fin.sum_univ_three, Matrix.one_apply, Matrix.vecHead, Matrix.vecTail, sqrt_four] <;>
      norm_num [sqrt_four]

/-- State of the factorization of the 3×3 identity after both loop
iterations, i.e. the value of `householder 1`. -/
lemma identity3_loop2 :
    hhLoop (1 : Matrix (Fin 3) (Fin 3) ℝ) 2 =
      (!![1,0,0; 0,1,0; 0,0,0], !![-1,0,0; 0,-1,0; 0,0,1]) := by
  have h : hhLoop (1 : Matrix (Fin 3) (Fin 3) ℝ) 2 =
      hhStep 1 (hhLoop (1 : Matrix (Fin 3) (Fin 3) ℝ) 1) := rfl
  rw [h, identity3_loop1]
  refine Prod.ext ?_ ?_ <;>
  · ext i j
    fin_cases i <;> fin_cases j <;>
      simp [hhStep, subcolAt, perturbed, normalized, npSign, sliceNorm, sliceDot,
        Fin.sum_univ_three, Matrix.vecHead, Matrix.vecTail, sqrt_four] <;>
      norm_num [sqrt_four]

/-- C7 (counterexample): the claim states that for `A` the 3×3 identity,
`factor(A)` yields `R ≈ I` and `V ≈ 0`, and `applyQ(V, b)` returns `b`
unchanged for every `b`.  In fact `np.sign(1) = 1` produces genuine
reflectors (this is the standard stable choice, not a degenerate step):
`V = [e₀, e₁, 0]`, `R = diag(-1,-1,1)`, and `apply_Q` negates the first
coordinate of `e₀` instead of fixing it. -/
theorem C7_counterexample :
    apply_Q (householder (1 : Matrix (Fin 3) (Fin 3) ℝ)).1 (basisVec 0) ≠ basisVec 0 := by
  have hh : householder (1 : Matrix (Fin 3) (Fin 3) ℝ) =
      (!![1,0,0; 0,1,0; 0,0,0], !![-1,0,0; 0,-1,0; 0,0,1]) := identity3_loop2
  intro h
  have h0 := congrFun h 0
  rw [hh] at h0
  simp [apply_Q, applyQAux, reflectStep, basisVec, sliceDot,
    Fin.sum_univ_three, Matrix.vecHead, Matrix.vecTail] at h0

/-- C7 (amended): on the 3×3 identity, `householder` returns
`V = [e₀, e₁, 0]` and `R = diag(-1,-1,1)` (not `V ≈ 0`, `R ≈ I`), and
`apply_Q(V, b)` negates the first two coordinates of `b` instead of
returning `b` unchanged. -/
theorem C7_amended :
    householder (1 : Matrix (Fin 3) (Fin 3) ℝ) =
      (!![1,0,0; 0,1,0; 0,0,0], !![-1,0,0; 0,-1,0; 0,0,1]) ∧
    ∀ b : Fin 3 → ℝ,
      apply_Q (householder (1 : Matrix (Fin 3) (Fin 3) ℝ)).1 b = ![-(b 0), -(b 1), b 2] := by
  have hh : householder (1 : Matrix (Fin 3) (Fin 3) ℝ) =
      (!![1,0,0; 0,1,0; 0,0,0], !![-1,0,0; 0,-1,0; 0,0,1]) := identity3_loop2
  refine ⟨hh, fun b => ?_⟩
  rw [hh]
  funext i
  fin_cases i <;>
    simp [apply_Q, applyQAux, reflectStep, sliceDot,
      Fin.sum_univ_three, Matrix.vecHead, Matrix.vecTail] <;>
    try ring

/-! ### Claim C8: shape validation -/

/-- Input with fewer rows than columns (2×3), the shape the claim says must
be rejected with an InvalidArgument-class error. -/
def exampleC8 : Matrix (Fin 2) (Fin 3) ℝ := !![0,0,0; 1,-1,5]

/-- State of the factorization of the wide matrix `exampleC8` after one loop
iteration. -/
lemma exampleC8_loop1 :
    hhLoop exampleC8 1 = (!![0,0,0; 1,0,0], !![0,0,0; -1,1,-5]) := by
  refine Prod.ext ?_ ?_ <;>
  · ext i j
    fin_cases i <;> fin_cases j <;>
      simp [hhLoop, hhStep, subcolAt, perturbed, normalized, npSign, sliceNorm, sliceDot,
        Fin.sum_univ_two, exampleC8, Matrix.vecHead, Matrix.vecTail] <;> norm_num

/-- State of the factorization of `exampleC8` after both loop iterations,
i.e. the value of `householder exampleC8`. -/
lemma exampleC8_loop2 :
    hhLoop exampleC8 2 = (!![0,0,0; 1,1,0], !![0,0,0; -1,-1,5]) := by
  have h : hhLoop exampleC8 2 = hhStep 1 (hhLoop exampleC8 1) := rfl
  rw [h, exampleC8_loop1]
  refine Prod.ext ?_ ?_ <;>
  · ext i j
    fin_cases i <;> fin_cases j <;>
      simp [hhStep, subcolAt, perturbed, normalized, npSign, sliceNorm, sliceDot,
        Fin.sum_univ_two, Matrix.vecHead, Matrix.vecTail, sqrt_four] <;> norm_num [sqrt_four]

/-- C8 (counterexample): the claim states that `householder` fails with an
InvalidArgument-class error on every input with `m < n`.  The source
contains no shape check at all: on the 2×3 input `exampleC8` the loop runs
to completion and returns an ordinary numeric result, e.g. the entry
`R[1,2] = 5`. -/
theorem C8_counterexample :
    (householder exampleC8).2 1 2 = 5 ∧ (householder exampleC8).1 1 1 = 1 := by
  have hh : householder exampleC8 = (!![0,0,0; 1,1,0], !![0,0,0; -1,-1,5]) :=
    exampleC8_loop2
  rw [hh]
  norm_num

/-- C8 (amended): `householder` performs no shape validation; on a matrix
with `m = n - 1 < n` rows it completes normally and returns `(V, R)` (the
NumPy slice `R[:n,:]` silently keeps only the `m` existing rows).  Only a
shape with `n > m + 1` aborts inside the numeric library with an incidental
IndexError, and `apply_Q`'s failure on a mismatched vector length likewise
comes from the library, not from an explicit check. -/
theorem C8_amended :
    householder exampleC8 = (!![0,0,0; 1,1,0], !![0,0,0; -1,-1,5]) :=
  exampleC8_loop2

/-! ### Claim C1: what apply_Q computes -/

lemma sqrt_625 : Real.sqrt 625 = 25 := by
  rw [show (625 : ℝ) = 25 ^ 2 by norm_num]
  exact Real.sqrt_sq (by norm_num)

/-- Input matrix whose factorization yields a non-symmetric `Q` (so that the
action of `Q` and of `Qᵀ` on a vector differ), with all intermediate norms
rational so the run can be evaluated exactly. -/
def exampleC1 : Matrix (Fin 3) (Fin 3) ℝ := !![0,1,1; 3,24,0; 4,7,0]

/-- State of the factorization of `exampleC1` after one loop iteration:
the first column `(0,3,4)` has norm 5 and zero leading entry, so the
reflector is `(0, 3/5, 4/5)`. -/
lemma exampleC1_loop1 :
    hhLoop exampleC1 1 =
      (!![0,0,0; 3/5,0,0; 4/5,0,0], !![0,1,1; -3,0,0; -4,-25,0]) := by
  refine Prod.ext ?_ ?_ <;>
  · ext i j
    fin_cases i <;> fin_cases j <;>
      simp [hhLoop, hhStep, subcolAt, perturbed, normalized, npSign, sliceNorm, sliceDot,
        Fin.sum_univ_three, exampleC1, Matrix.vecHead, Matrix.vecTail, sqrt_twentyfive] <;>
      norm_num [sqrt_twentyfive]

/-- State of the factorization of `exampleC1` after both loop iterations,
i.e. the value of `householder exampleC1`: the second sub-column `(0,-25)`
has norm 25 and zero leading entry, giving the reflector `(0, 0, -1)`. -/
lemma exampleC1_loop2 :
    hhLoop exampleC1 2 =
      (!![0,0,0; 3/5,0,0; 4/5,-1,0], !![0,1,1; -3,0,0; -4,25,0]) := by
  have h : hhLoop exampleC1 2 = hhStep 1 (hhLoop exampleC1 1) := rfl
  rw [h, exampleC1_loop1]
  refine Prod.ext ?_ ?_ <;>
  · ext i j
    fin_cases i <;> fin_cases j <;>
      simp [hhStep, subcolAt, perturbed, normalized, npSign, sliceNorm, sliceDot,
        Fin.sum_univ_three, Matrix.vecHead, Matrix.vecTail, sqrt_625] <;>
      norm_num [sqrt_625]

/-- C1 (counterexample): the claim states that for `V` produced by
`householder` and any vector `x`, `apply_Q V x` equals `Qᵀ·x` with
`Q = compute_Q V`.  On `exampleC1` the reconstructed `Q` is not symmetric,
and at `x = e₁` the two sides differ in coordinate 2: `apply_Q` gives
`-24/25` there (the action of `Q`, not `Qᵀ`), while `Qᵀ·e₁` has `24/25`. -/
theorem C1_counterexample :
    apply_Q (householder exampleC1).1 (basisVec 1) ≠
      (compute_Q (householder exampleC1).1)ᵀ.mulVec (basisVec 1) := by
  have hh : householder exampleC1 =
      (!![0,0,0; 3/5,0,0; 4/5,-1,0], !![0,1,1; -3,0,0; -4,25,0]) := exampleC1_loop2
  intro h
  have h2 := congrFun h 2
  rw [hh] at h2
  simp [apply_Q, applyQAux, reflectStep, basisVec, sliceDot, compute_Q,
    Matrix.mulVec, Matrix.transpose_apply, dotProduct,
    Fin.sum_univ_three, Matrix.vecHead, Matrix.vecTail] at h2
  norm_num at h2

/-- Slice dot products are additive in the second argument. -/
lemma sliceDot_add_right {m : ℕ} (k : ℕ) (u x y : Fin m → ℝ) :
    sliceDot k u (x + y) = sliceDot k u x + sliceDot k u y := by
  unfold sliceDot
  rw [← Finset.sum_add_distrib]
  refine Finset.sum_congr rfl fun i _ => ?_
  by_cases h : k ≤ (i : ℕ) <;> simp [h, Pi.add_apply] <;> ring

/-- Slice dot products are homogeneous in the second argument. -/
lemma sliceDot_smul_right {m : ℕ} (k : ℕ) (u x : Fin m → ℝ) (c : ℝ) :
    sliceDot k u (c • x) = c * sliceDot k u x := by
  unfold sliceDot
  rw [Finset.mul_sum]
  refine Finset.sum_congr rfl fun i _ => ?_
  by_cases h : k ≤ (i : ℕ) <;> simp [h, Pi.smul_apply] <;> ring

/-- Each reflection step of `apply_Q` is additive in the vector argument. -/
lemma reflectStep_add {m n : ℕ} (V : Matrix (Fin m) (Fin n) ℝ) (k : ℕ)
    (x y : Fin m → ℝ) :
    reflectStep V k (x + y) = reflectStep V k x + reflectStep V k y := by
  funext i
  unfold reflectStep
  by_cases h : k < n
  · simp only [dif_pos h, sliceDot_add_right, Pi.add_apply]
    by_cases hi : k ≤ (i : ℕ) <;> simp [hi] <;> ring
  · simp [dif_neg h]

/-- Each reflection step of `apply_Q` is homogeneous in the vector
argument. -/
lemma reflectStep_smul {m n : ℕ} (V : Matrix (Fin m) (Fin n) ℝ) (k : ℕ)
    (x : Fin m → ℝ) (c : ℝ) :
    reflectStep V k (c • x) = c • reflectStep V k x := by
  funext i
  unfold reflectStep
  by_cases h : k < n
  · simp only [dif_pos h, sliceDot_smul_right, Pi.smul_apply, smul_eq_mul]
    by_cases hi : k ≤ (i : ℕ) <;> simp [hi] <;> ring
  · simp [dif_neg h]

/-- The reflector loop of `apply_Q` is additive in the vector argument. -/
lemma applyQAux_add {m n : ℕ} (V : Matrix (Fin m) (Fin n) ℝ) (t : ℕ)
    (x y : Fin m → ℝ) :
    applyQAux V t (x + y) = applyQAux V t x + applyQAux V t y := by
  induction t generalizing x y with
  | zero => rfl
  | succ t ih => simp [applyQAux, reflectStep_add, ih]

/-- The reflector loop of `apply_Q` is homogeneous in the vector
argument. -/
lemma applyQAux_smul {m n : ℕ} (V : Matrix (Fin m) (Fin n) ℝ) (t : ℕ)
    (x : Fin m → ℝ) (c : ℝ) :
    applyQAux V t (c • x) = c • applyQAux V t x := by
  induction t generalizing x with
  | zero => rfl
  | succ t ih => simp [applyQAux, reflectStep_smul, ih]

/-- The reflector loop of `apply_Q` maps the zero vector to itself. -/
lemma applyQAux_zero {m n : ℕ} (V : Matrix (Fin m) (Fin n) ℝ) (t : ℕ) :
    applyQAux V t (0 : Fin m → ℝ) = 0 := by
  have h := applyQAux_smul V t 0 0
  simpa using h

/-- The reflector loop of `apply_Q` commutes with finite sums of
vectors. -/
lemma applyQAux_sum {m n : ℕ} (V : Matrix (Fin m) (Fin n) ℝ) (t : ℕ)
    {ι : Type} (s : Finset ι) (f : ι → Fin m → ℝ) :
    applyQAux V t (∑ j ∈ s, f j) = ∑ j ∈ s, applyQAux V t (f j) := by
  classical
  induction s using Finset.induction_on with
  | empty => simpa using applyQAux_zero V t
  | insert hj ih =>
      rw [Finset.sum_insert hj, Finset.sum_insert hj, applyQAux_add, ih]

/-- C1 (amended): for every reflector set `V` and vector `x`, `apply_Q V x`
is the action of `Q` itself on `x` — it equals `compute_Q V` (not its
transpose) times `x`.  The reverse-order loop `k = n-1, ..., 0` applies
`H₀·H₁···H_{n-1}` to `x`, which is exactly the matrix whose columns
`compute_Q` materializes. -/
theorem C1_amended {n : ℕ} (V : Matrix (Fin n) (Fin n) ℝ) (x : Fin n → ℝ) :
    apply_Q V x = (compute_Q V).mulVec x := by
  have hx : x = ∑ j : Fin n, x j • basisVec (j : ℕ) := by
    funext i
    rw [Finset.sum_apply]
    simp [Pi.smul_apply, basisVec, smul_eq_mul, mul_ite, mul_one, mul_zero,
      Fin.val_eq_val, Finset.sum_ite_eq]
  conv_lhs => rw [hx]
  unfold apply_Q
  rw [applyQAux_sum]
  funext i
  rw [Finset.sum_apply]
  simp only [applyQAux_smul, Pi.smul_apply, smul_eq_mul]
  rw [Matrix.mulVec, dotProduct]
  refine Finset.sum_congr rfl fun j _ => ?_
  rw [mul_comm]
  rfl

/-! ### Claim C3: orthonormality of the reconstructed Q

The proof factors each `apply_Q` iteration through the full `m×m`
reflection matrix `H_k = I - 2 v_k v_kᵀ` built from column `k` of `V`,
shows `compute_Q V` is the product `H_0 ⋯ H_{n-1}`, and concludes since
every `H_k` is symmetric and involutive once its generating column has unit
norm (or is zero, as column `n-1` always is). -/

/-- Column `k` of a reflector matrix `V` as a vector (zero if the column
does not exist). -/
def reflVec {m n : ℕ} (V : Matrix (Fin m) (Fin n) ℝ) (k : ℕ) : Fin m → ℝ :=
  fun i => if h : k < n then V i ⟨k, h⟩ else 0

/-- The reflector vector `householder` computes and stores at step `k`:
the extracted sub-column, perturbed at its leading entry and normalized. -/
noncomputable def reflectorOf {m n : ℕ} (A : Matrix (Fin m) (Fin n) ℝ)
    (k : ℕ) : Fin m → ℝ :=
  normalized k (perturbed k (extractedSubcol A k))

/-- The full reflection matrix `H_k = I - 2 v_k v_kᵀ` generated by column
`k` of `V`. -/
def reflMat {m n : ℕ} (V : Matrix (Fin m) (Fin n) ℝ) (k : ℕ) :
    Matrix (Fin m) (Fin m) ℝ :=
  1 - (2 : ℝ) • Matrix.vecMulVec (reflVec V k) (reflVec V k)

/-- The product `H_0 * H_1 * ⋯ * H_{t-1}` of the reflection matrices. -/
def qProd {m n : ℕ} (V : Matrix (Fin m) (Fin n) ℝ) :
    ℕ → Matrix (Fin m) (Fin m) ℝ
  | 0 => 1
  | t + 1 => qProd V t * reflMat V t

/-- Square of a rank-one matrix `v vᵀ`. -/
lemma vecMulVec_sq {m : ℕ} (v : Fin m → ℝ) :
    Matrix.vecMulVec v v * Matrix.vecMulVec v v =
      dotProduct v v • Matrix.vecMulVec v v := by
  ext i j
  simp only [Matrix.mul_apply, Matrix.vecMulVec_apply, Matrix.smul_apply,
    dotProduct, smul_eq_mul]
  rw [Finset.sum_mul]
  exact Finset.sum_congr rfl fun l _ => by ring

/-- Reflection matrices are symmetric. -/
lemma reflMat_transpose {m n : ℕ} (V : Matrix (Fin m) (Fin n) ℝ) (k : ℕ) :
    (reflMat V k)ᵀ = reflMat V k := by
  ext i j
  simp [reflMat, Matrix.transpose_apply, Matrix.sub_apply, Matrix.smul_apply,
    Matrix.vecMulVec_apply, Matrix.one_apply, eq_comm]
  ring

/-- A reflection matrix generated by a unit vector is involutive. -/
lemma reflMat_mul_self {m n : ℕ} (V : Matrix (Fin m) (Fin n) ℝ) (k : ℕ)
    (h : dotProduct (reflVec V k) (reflVec V k) = 1) :
    reflMat V k * reflMat V k = 1 := by
  unfold reflMat
  rw [sub_mul, one_mul, mul_sub, mul_one, Matrix.smul_mul, Matrix.mul_smul,
    vecMulVec_sq, h, one_smul, smul_smul]
  ext i j
  simp [Matrix.sub_apply, Matrix.smul_apply, Matrix.one_apply,
    Matrix.vecMulVec_apply]
  ring

/-- A reflection matrix generated by the zero vector is the identity. -/
lemma reflMat_of_zero {m n : ℕ} (V : Matrix (Fin m) (Fin n) ℝ) (k : ℕ)
    (h : reflVec V k = 0) : reflMat V k = 1 := by
  ext i j
  simp [reflMat, h, Matrix.vecMulVec_apply]

/-- When column `k` of `V` vanishes above row `k` (as `householder`
guarantees), one `apply_Q` iteration is multiplication by the full
reflection matrix `H_k`: the row guard and the sliced dot product in the
source coincide with the unrestricted ones. -/
lemma reflectStep_eq_mulVec {m n : ℕ} (V : Matrix (Fin m) (Fin n) ℝ) (k : ℕ)
    (hs : ∀ i : Fin m, (i : ℕ) < k → reflVec V k i = 0) (x : Fin m → ℝ) :
    reflectStep V k x = (reflMat V k).mulVec x := by
  funext i
  have hmv : (reflMat V k).mulVec x i =
      x i - 2 * (∑ l : Fin m, reflVec V k l * x l) * reflVec V k i := by
    rw [Matrix.mulVec, dotProduct]
    simp only [reflMat, Matrix.sub_apply, Matrix.smul_apply, Matrix.one_apply,
      Matrix.vecMulVec_apply, smul_eq_mul, sub_mul, ite_mul, one_mul, zero_mul]
    rw [Finset.sum_sub_distrib, Finset.sum_ite_eq Finset.univ i x,
      if_pos (Finset.mem_univ i), Finset.mul_sum]
    congr 1
    rw [Finset.sum_mul]
    exact Finset.sum_congr rfl fun l _ => by ring
  rw [hmv]
  have hdot : ∀ h : k < n,
      (∑ l : Fin m, reflVec V k l * x l) = sliceDot k (fun r => V r ⟨k, h⟩) x := by
    intro h
    unfold sliceDot
    refine Finset.sum_congr rfl fun l _ => ?_
    by_cases hl : k ≤ (l : ℕ)
    · simp [reflVec, dif_pos h, hl]
    · have : reflVec V k l = 0 := hs l (by omega)
      simp [hl, this]
  unfold reflectStep
  by_cases h : k < n
  · rw [dif_pos h]
    by_cases hi : k ≤ (i : ℕ)
    · rw [if_pos hi, hdot h]
      have : reflVec V k i = V i ⟨k, h⟩ := by simp [reflVec, dif_pos h]
      rw [this]
    · rw [if_neg hi]
      have : reflVec V k i = 0 := hs i (by omega)
      rw [this]
      ring
  · rw [dif_neg h]
    have : reflVec V k i = 0 := by simp [reflVec, dif_neg h]
    rw [this]
    ring

/-- Under the same column-support condition for every `k`, the whole
`apply_Q` loop is multiplication by the product of the reflection
matrices. -/
lemma applyQAux_eq_qProd {m n : ℕ} (V : Matrix (Fin m) (Fin n) ℝ)
    (hs : ∀ k, ∀ i : Fin m, (i : ℕ) < k → reflVec V k i = 0) :
    ∀ t (x : Fin m → ℝ), applyQAux V t x = (qProd V t).mulVec x := by
  intro t
  induction t with
  | zero => intro x; simp [applyQAux, qProd, Matrix.one_mulVec]
  | succ t ih =>
      intro x
      show applyQAux V t (reflectStep V t x) = (qProd V (t + 1)).mulVec x
      rw [ih, reflectStep_eq_mulVec V t (hs t), Matrix.mulVec_mulVec]
      rfl

/-- Under the column-support condition, `compute_Q V` is exactly the
product matrix `H_0 ⋯ H_{n-1}`. -/
lemma compute_Q_eq_qProd {n : ℕ} (V : Matrix (Fin n) (Fin n) ℝ)
    (hs : ∀ k, ∀ i : Fin n, (i : ℕ) < k → reflVec V k i = 0) :
    compute_Q V = qProd V n := by
  ext i j
  show apply_Q V (basisVec (j : ℕ)) i = qProd V n i j
  unfold apply_Q
  rw [applyQAux_eq_qProd V hs, Matrix.mulVec, dotProduct]
  simp [basisVec, mul_ite, Fin.val_eq_val, Finset.sum_ite_eq']

/-- A product of symmetric involutive reflection matrices M satisfies
`Mᵀ M = 1`. -/
lemma qProd_orthogonal {m n : ℕ} (V : Matrix (Fin m) (Fin n) ℝ) (t : ℕ)
    (h : ∀ k, k < t → reflMat V k * reflMat V k = 1) :
    (qProd V t)ᵀ * qProd V t = 1 := by
  induction t with
  | zero => simp [qProd]
  | succ t ih =>
      show (qProd V t * reflMat V t)ᵀ * (qProd V t * reflMat V t) = 1
      rw [Matrix.transpose_mul, reflMat_transpose, Matrix.mul_assoc,
        ← Matrix.mul_assoc (qProd V t)ᵀ, ih (fun k hk => h k (by omega)),
        Matrix.one_mul, h t (by omega)]

/-- Columns of `V` that have not been written yet (`t ≤ j`) are still
zero after the first `t` iterations of the loop: iteration `k` writes only
column `k`, and `V` starts as `np.zeros(A.shape)`. -/
lemma hhLoop_V_ge {m n : ℕ} (A : Matrix (Fin m) (Fin n) ℝ) :
    ∀ t, ∀ j : Fin n, t ≤ (j : ℕ) → ∀ i, (hhLoop A t).1 i j = 0 := by
  intro t
  induction t with
  | zero => intro j _ i; rfl
  | succ t ih =>
      intro j hj i
      show (hhStep t (hhLoop A t)).1 i j = 0
      unfold hhStep
      have hne : ¬((j : ℕ) = t ∧ t ≤ (i : ℕ)) := by
        rintro ⟨hjt, -⟩; omega
      simp only [if_neg hne]
      exact ih j (by omega) i

/-- The reflector stored at step `k` vanishes above row `k`: the extracted
sub-column does by construction, and neither the leading-entry perturbation
nor the elementwise normalization touches those entries. -/
lemma reflectorOf_support {m n : ℕ} (A : Matrix (Fin m) (Fin n) ℝ) (k : ℕ) :
    ∀ i : Fin m, (i : ℕ) < k → reflectorOf A k i = 0 := by
  intro i hi
  unfold reflectorOf normalized perturbed extractedSubcol subcolAt
  have hik : ¬((i : ℕ) = k) := by omega
  by_cases h : k < n
  · simp [dif_pos h, if_neg hik, if_neg (by omega : ¬ k ≤ (i : ℕ))]
  · simp [dif_neg h, if_neg hik]

/-- Column `k < t` of `V` after `t` loop iterations holds exactly the
reflector computed at step `k`: iteration `k` writes it (rows below `k`
from the normalized vector, rows above untouched and still zero, matching
the reflector's own zeros), and later iterations write other columns. -/
lemma hhLoop_V_col {m n : ℕ} (A : Matrix (Fin m) (Fin n) ℝ) :
    ∀ t k, k < t → ∀ (h : k < n) (i : Fin m),
      (hhLoop A t).1 i ⟨k, h⟩ = reflectorOf A k i := by
  intro t
  induction t with
  | zero => intro k hk; omega
  | succ t ih =>
      intro k hk h i
      show (if k = t ∧ t ≤ (i : ℕ) then
          normalized t (perturbed t (subcolAt (hhLoop A t).2 t)) i
        else (hhLoop A t).1 i ⟨k, h⟩) = reflectorOf A k i
      by_cases hkt : k = t
      · subst hkt
        by_cases hi : k ≤ (i : ℕ)
        · have hcond : k = k ∧ k ≤ (i : ℕ) := ⟨rfl, hi⟩
          rw [if_pos hcond]
          rfl
        · have hne : ¬(k = k ∧ k ≤ (i : ℕ)) := fun hc => hi hc.2
          rw [if_neg hne]
          rw [hhLoop_V_ge A k ⟨k, h⟩ le_rfl i]
          exact (reflectorOf_support A k i (by omega)).symm
      · have hne : ¬(k = t ∧ t ≤ (i : ℕ)) := fun hc => hkt hc.1
        rw [if_neg hne]
        exact ih k (by omega) h i

/-- The extracted sub-column always vanishes above row `k` (it is a slice
starting at row `k`). -/
lemma extractedSubcol_support {m n : ℕ} (A : Matrix (Fin m) (Fin n) ℝ)
    (k : ℕ) : ∀ i : Fin m, (i : ℕ) < k → extractedSubcol A k i = 0 := by
  intro i hi
  unfold extractedSubcol subcolAt
  by_cases h : k < n
  · rw [dif_pos h, if_neg (by omega : ¬ k ≤ (i : ℕ))]
  · rw [dif_neg h]

/-- Sliced self dot products are nonnegative. -/
lemma sliceDot_self_nonneg {m : ℕ} (k : ℕ) (x : Fin m → ℝ) :
    0 ≤ sliceDot k x x :=
  Finset.sum_nonneg fun i _ => by
    by_cases h : k ≤ (i : ℕ) <;> simp [h, mul_self_nonneg]

/-- A vector supported on rows `k` and below with some nonzero entry has
positive sliced self dot product. -/
lemma sliceDot_self_pos {m : ℕ} (k : ℕ) (x : Fin m → ℝ)
    (hsupp : ∀ i : Fin m, (i : ℕ) < k → x i = 0) (hx : x ≠ 0) :
    0 < sliceDot k x x := by
  obtain ⟨i0, hi0⟩ : ∃ i, x i ≠ 0 := by
    by_contra hc
    push_neg at hc
    exact hx (funext hc)
  have hki : k ≤ (i0 : ℕ) := by
    by_contra hc
    exact hi0 (hsupp i0 (by omega))
  refine Finset.sum_pos' (fun i _ => ?_) ⟨i0, Finset.mem_univ i0, ?_⟩
  · by_cases h : k ≤ (i : ℕ) <;> simp [h, mul_self_nonneg]
  · rw [if_pos hki]
    exact mul_self_pos.mpr hi0

/-- The leading-entry perturbation does not touch rows other than `k`,
so it preserves vanishing above row `k`. -/
lemma perturbed_support {m : ℕ} (k : ℕ) (x : Fin m → ℝ)
    (hsupp : ∀ i : Fin m, (i : ℕ) < k → x i = 0) :
    ∀ i : Fin m, (i : ℕ) < k → perturbed k x i = 0 := by
  intro i hi
  unfold perturbed
  rw [if_neg (by omega : ¬ (i : ℕ) = k)]
  exact hsupp i hi

/-- The perturbed sub-column of a nonzero sub-column is again nonzero (in
sliced self dot product): with `np.sign`, a zero leading entry leaves the
vector unchanged, and a nonzero leading entry moves away from zero because
the added term `sign(x[0])·‖x‖` has the same sign as `x[0]`. -/
lemma perturbed_dot_pos {m : ℕ} (k : ℕ) (x : Fin m → ℝ)
    (hsupp : ∀ i : Fin m, (i : ℕ) < k → x i = 0) (hx : x ≠ 0) :
    0 < sliceDot k (perturbed k x) (perturbed k x) := by
  obtain ⟨i0, hi0⟩ : ∃ i, x i ≠ 0 := by
    by_contra hc
    push_neg at hc
    exact hx (funext hc)
  have hki0 : k ≤ (i0 : ℕ) := by
    by_contra hc
    exact hi0 (hsupp i0 (by omega))
  have hkm : k < m := lt_of_le_of_lt hki0 i0.isLt
  have hsn : 0 ≤ sliceNorm k x := Real.sqrt_nonneg _
  rcases lt_trichotomy (x ⟨k, hkm⟩) 0 with hneg | hzero | hpos
  · have hval : perturbed k x ⟨k, hkm⟩ = x ⟨k, hkm⟩ + -1 * sliceNorm k x := by
      unfold perturbed npSign
      rw [if_pos rfl, if_neg (by linarith : ¬ (0 : ℝ) < x ⟨k, hkm⟩), if_pos hneg]
    have hv : perturbed k x ⟨k, hkm⟩ < 0 := by rw [hval]; linarith
    refine Finset.sum_pos' (fun i _ => ?_) ⟨⟨k, hkm⟩, Finset.mem_univ _, ?_⟩
    · by_cases h : k ≤ (i : ℕ) <;> simp [h, mul_self_nonneg]
    · rw [if_pos (le_refl k)]
      exact mul_self_pos.mpr (ne_of_lt hv)
  · have hpx : perturbed k x = x := by
      funext i
      unfold perturbed
      by_cases hik : (i : ℕ) = k
      · have hieq : i = ⟨k, hkm⟩ := Fin.ext hik
        rw [if_pos hik, hieq, hzero]
        unfold npSign
        norm_num
      · rw [if_neg hik]
    rw [hpx]
    exact sliceDot_self_pos k x hsupp hx
  · have hval : perturbed k x ⟨k, hkm⟩ = x ⟨k, hkm⟩ + 1 * sliceNorm k x := by
      unfold perturbed npSign
      rw [if_pos rfl, if_pos hpos]
    have hv : 0 < perturbed k x ⟨k, hkm⟩ := by rw [hval]; linarith
    refine Finset.sum_pos' (fun i _ => ?_) ⟨⟨k, hkm⟩, Finset.mem_univ _, ?_⟩
    · by_cases h : k ≤ (i : ℕ) <;> simp [h, mul_self_nonneg]
    · rw [if_pos (le_refl k)]
      exact mul_self_pos.mpr (ne_of_gt hv)

/-- Normalizing a slice-supported vector with positive sliced self dot
product yields a vector of unit (full) dot product with itself. -/
lemma normalized_unit {m : ℕ} (k : ℕ) (y : Fin m → ℝ)
    (hsupp : ∀ i : Fin m, (i : ℕ) < k → y i = 0)
    (hd : 0 < sliceDot k y y) :
    dotProduct (normalized k y) (normalized k y) = 1 := by
  have hs : sliceNorm k y * sliceNorm k y = sliceDot k y y :=
    Real.mul_self_sqrt (le_of_lt hd)
  have h1 : ∀ i : Fin m, normalized k y i * normalized k y i
      = (if k ≤ (i : ℕ) then y i * y i else 0) / (sliceNorm k y * sliceNorm k y) := by
    intro i
    unfold normalized
    by_cases h : k ≤ (i : ℕ)
    · rw [if_pos h, div_mul_div_comm]
    · rw [if_neg h, hsupp i (by omega)]
      simp
  rw [dotProduct, Finset.sum_congr rfl fun i _ => h1 i, ← Finset.sum_div]
  have h2 : (∑ i : Fin m, if k ≤ (i : ℕ) then y i * y i else 0) = sliceDot k y y := rfl
  rw [h2, hs, div_self (ne_of_gt hd)]

/-- The reflector stored by `householder` at a step whose extracted
sub-column is nonzero is a unit vector. -/
lemma reflectorOf_unit {m n : ℕ} (A : Matrix (Fin m) (Fin n) ℝ) (k : ℕ)
    (hx : extractedSubcol A k ≠ 0) :
    dotProduct (reflectorOf A k) (reflectorOf A k) = 1 := by
  have hsupp := extractedSubcol_support A k
  exact normalized_unit k (perturbed k (extractedSubcol A k))
    (perturbed_support k (extractedSubcol A k) hsupp)
    (perturbed_dot_pos k (extractedSubcol A k) hsupp hx)

/-- Every column of the `V` returned by `householder` vanishes above its
own index. -/
lemma householder_reflVec_support {m n : ℕ} (A : Matrix (Fin m) (Fin n) ℝ) :
    ∀ k, ∀ i : Fin m, (i : ℕ) < k → reflVec (householder A).1 k i = 0 := by
  intro k i hi
  unfold reflVec
  by_cases h : k < n
  · rw [dif_pos h]
    by_cases hk1 : k < n - 1
    · rw [show (householder A).1 = (hhLoop A (n - 1)).1 from rfl,
        hhLoop_V_col A (n - 1) k hk1 h i]
      exact reflectorOf_support A k i hi
    · exact hhLoop_V_ge A (n - 1) ⟨k, h⟩ (by show n - 1 ≤ k; omega) i
  · rw [dif_neg h]

/-- For `k < n-1`, column `k` of the returned `V` is the reflector computed
at step `k`. -/
lemma householder_reflVec_lt {m n : ℕ} (A : Matrix (Fin m) (Fin n) ℝ) (k : ℕ)
    (hk : k < n - 1) : reflVec (householder A).1 k = reflectorOf A k := by
  funext i
  have h : k < n := by omega
  unfold reflVec
  rw [dif_pos h]
  exact hhLoop_V_col A (n - 1) k hk h i

/-- Columns `k ≥ n-1` of the returned `V` are zero: the loop performs only
`n-1` steps, so the last column is never written. -/
lemma householder_reflVec_last {m n : ℕ} (A : Matrix (Fin m) (Fin n) ℝ)
    (k : ℕ) (hk : n - 1 ≤ k) : reflVec (householder A).1 k = 0 := by
  funext i
  unfold reflVec
  by_cases h : k < n
  · rw [dif_pos h]
    exact hhLoop_V_ge A (n - 1) ⟨k, h⟩ hk i
  · rw [dif_neg h]
    rfl

/-- C3: for every square matrix `A` whose extracted sub-columns are all
nonzero (so no normalization divides by zero), the matrix
`Q = compute_Q V` reconstructed from the `V` returned by `householder A`
satisfies `Qᵀ·Q = 1` exactly, in exact real arithmetic.  Each stored
reflector is a unit vector, so every reflection matrix is symmetric and
involutive, and `Q` — the product of those reflections — is orthogonal. -/
theorem C3_orthonormality {n : ℕ} (A : Matrix (Fin n) (Fin n) ℝ)
    (h : ∀ k, k < n - 1 → extractedSubcol A k ≠ 0) :
    (compute_Q (householder A).1)ᵀ * compute_Q (householder A).1 = 1 := by
  rw [compute_Q_eq_qProd (householder A).1 (householder_reflVec_support A)]
  refine qProd_orthogonal (householder A).1 n fun k hk => ?_
  by_cases hk1 : k < n - 1
  · refine reflMat_mul_self (householder A).1 k ?_
    rw [householder_reflVec_lt A k hk1]
    exact reflectorOf_unit A k (h k hk1)
  · rw [reflMat_of_zero (householder A).1 k
      (householder_reflVec_last A k (by omega))]
    exact Matrix.one_mul 1

/-- Witness for C3: the 2×2 matrix `!![1,0;0,1]` has its single extracted
sub-column equal to `(1,0) ≠ 0`, and the reconstructed `Q` indeed satisfies
`Qᵀ·Q = 1`. -/
theorem C3_orthonormality_witness :
    (∀ k, k < 2 - 1 →
      extractedSubcol (!![1, 0; 0, 1] : Matrix (Fin 2) (Fin 2) ℝ) k ≠ 0) ∧
    (compute_Q (householder (!![1, 0; 0, 1] : Matrix (Fin 2) (Fin 2) ℝ)).1)ᵀ *
      compute_Q (householder (!![1, 0; 0, 1] : Matrix (Fin 2) (Fin 2) ℝ)).1 = 1 := by
  have hyp : ∀ k, k < 2 - 1 →
      extractedSubcol (!![1, 0; 0, 1] : Matrix (Fin 2) (Fin 2) ℝ) k ≠ 0 := by
    intro k hk
    have hk0 : k = 0 := by omega
    subst hk0
    intro h
    have h0 := congrFun h 0
    simp [extractedSubcol, hhLoop, subcolAt] at h0
  exact ⟨hyp, C3_orthonormality _ hyp⟩
